import Mathlib

/-!
# Verification of the grafana-rrd-server core (`rrdserver.go`)

A shallow embedding, in Lean 4, of the core of `rrdserver.go`:

* the resilient rrdcached fetch path (`fetchRRDData`, lines 240-320);
* the search-cache refresh (`SearchCache.Update`, lines 148-209);
* the `/search` handler's filtering (`search`, lines 418-442);
* the `/ls` handler's directory-view derivation (`ls`, lines 341-416);
* the `/query` handler's per-target / per-file loop, range clamp and
  sample projection (`query`, lines 444-556).

Go strings are modelled as `List Char` (the handlers only ever treat them
byte-by-byte with ASCII separators `:`, `/`, `.`).  Unix timestamps and
steps are modelled as `Int` seconds; RRD float samples are modelled as
`Option ℚ`, `none` standing for the not-a-number marker produced by
`math.NaN()` and `some q` for an ordinary numeric value.  The fallible
external collaborators (rrdcached daemon, libryd `Info`/`Fetch`, `os.Stat`,
`filepath.Walk` callbacks) are modelled as oracle inputs: each call site
receives the outcome the collaborator would have produced.
-/

/-- Go strings, modelled as lists of characters. -/
abbrev Str := List Char

/-- `strings.Contains s sub`: `sub` occurs as a contiguous substring of `s`.
Mirrors Go's left-to-right scan; `strings.Contains s "" = true`. -/
def goContains (sub : Str) : Str → Bool
  | [] => sub.isEmpty
  | c :: rest => sub.isPrefixOf (c :: rest) || goContains sub rest

/-! ## The resilient daemon fetch path (`fetchRRDData`, rrdcached branch)

The Go loop (lines 257-280):

```
for attempt := 0; attempt < 3; attempt++ {
    if attempt > 0 {
        backoff := time.Duration(attempt*attempt) * time.Second
        time.Sleep(backoff)
    }
    fetch, err = rrdcachedClient.Fetch(filePath, cf, startUnix, endUnix)
    if err == nil { break }
    if strings.Contains(err.Error(), "timeout") || strings.Contains(err.Error(), "connection") {
        if recreateErr := recreateRRDCachedClient(); recreateErr == nil { continue }
    }
}
if err != nil { return ..., err }
```

The daemon's behaviour is an oracle list `outcomes : List (Except Str α)`:
its `i`-th element is the outcome the daemon would give to the `i`-th
`Fetch` call (0-based).  The loop guard `attempt < 3` is rendered by
consuming at most the first three outcomes (`List.take 3`), the running
`attempt` counter being threaded for the backoff computation.  The
embedding records the observable trace: how many fetch attempts were
issued, the backoffs slept before the retries (in seconds, in order), how
many reconnections of the shared client were triggered, and the final
result.  Note that in the source the success or failure of
`recreateRRDCachedClient` does not change the control flow (its `continue`
jumps where the loop would go anyway), so only the fact that a reconnect
was triggered is observable here. -/

/-- The transient-error classification of `fetchRRDData` (line 273):
`strings.Contains(err.Error(), "timeout") || strings.Contains(err.Error(), "connection")`. -/
def isTransientErr (e : Str) : Bool :=
  goContains "timeout".toList e || goContains "connection".toList e

/-- Observable trace of the retry loop in `fetchRRDData`. -/
structure RetryTrace (α : Type) where
  attempts : Nat
  backoffs : List Nat
  reconnects : Nat
  result : Except Str α

/-- The retry loop of `fetchRRDData` from iteration `attempt` on, with the
error of the previous attempt in `lastErr` (the Go variable `err`) and the
outcomes of the remaining allowed attempts ahead. -/
def fetchRetryAux (lastErr : Str) (attempt : Nat) :
    List (Except Str α) → RetryTrace α
  | [] => ⟨0, [], 0, .error lastErr⟩
  | r :: rest =>
    let bs : List Nat := if 0 < attempt then [attempt * attempt] else []
    match r with
    | .ok v => ⟨1, bs, 0, .ok v⟩
    | .error e =>
      let rc : Nat := if isTransientErr e then 1 else 0
      let t := fetchRetryAux e (attempt + 1) rest
      ⟨1 + t.attempts, bs ++ t.backoffs, rc + t.reconnects, t.result⟩

/-- The whole retry loop of `fetchRRDData` (daemon branch): start at
attempt 0 with no previous error; the guard `attempt < 3` allows at most
the first three outcomes to be consumed. -/
def fetchRetry (outcomes : List (Except Str α)) : RetryTrace α :=
  fetchRetryAux [] 0 (outcomes.take 3)

/-- Number of outcomes in a list that are transient (timeout / connection)
failures. -/
def transientFailures (l : List (Except Str α)) : Nat :=
  (l.filter (fun r =>
    match r with
    | .error e => isTransientErr e
    | .ok _ => false)).length

/-! ## The search handler (`search`, lines 418-442) -/

/-- The filtering performed by the `/search` handler on the current cache
snapshot: only a non-empty target is substring-matched; an empty target
returns the initial empty result slice. -/
def searchFilter (items : List Str) (target : Str) : List Str :=
  if target ≠ [] then items.filter (fun p => goContains target p) else []

/-! ## The cache refresh (`SearchCache.Update`, lines 148-209)

`filepath.Walk` visits entries in order; the callback receives either a
walk error (modelled `.failed`), a directory, or a file with its relative
path (`filepath.Rel` of the walked path against the configured base) and
the outcome of the per-file `Info` call (the list of datasource names of
`ds.index`, or an error).  A walk error aborts the walk and `Update`
returns without touching the published items; a per-file `Info` error just
skips that file. -/

/-- The `.rrd` extension pattern used by `SearchCache.Update`. -/
def rrdExt : Str := ['.', 'r', 'r', 'd']

/-- `strings.Replace s ".rrd" "" 1`: remove the first occurrence of
`".rrd"`, scanning left to right. -/
def replaceFirstRrd : Str → Str
  | [] => []
  | c :: rest =>
    if rrdExt.isPrefixOf (c :: rest) then (c :: rest).drop rrdExt.length
    else c :: replaceFirstRrd rest

/-- `strings.Replace fName "/" ":" -1`: replace every path separator with
the namespace join character. -/
def mapSep (s : Str) : Str := s.map (fun c => if c = '/' then ':' else c)

/-- `info.Name()`: the base name of a walked path (everything after the
last `/`; the whole path when it has no separator). -/
def lastComponent (rel : Str) : Str :=
  (rel.reverse.takeWhile (fun c => c ≠ '/')).reverse

/-- The metric-identifier prefix `SearchCache.Update` derives from a file's
relative path (lines 162-163): drop the first `".rrd"` occurrence, then
replace `/` with `:`. -/
def fNameOf (rel : Str) : Str := mapSep (replaceFirstRrd rel)

/-- One event delivered to the `filepath.Walk` callback of
`SearchCache.Update`. -/
inductive WalkEntry where
  /-- the callback is invoked with a non-nil walk error (line 154) -/
  | failed (e : Str)
  /-- a directory entry (skipped, line 158) -/
  | dir (name : Str)
  /-- a regular file: relative path and outcome of the `Info` call
  (list of datasource names, or the error) -/
  | file (rel : Str) (info : Except Str (List Str))

/-- Relative paths of the file entries a walk delivers (the real archive
files under the base path, as far as the walk shows them). -/
def walkFileRels (entries : List WalkEntry) : List Str :=
  entries.filterMap (fun e =>
    match e with
    | .file rel _ => some rel
    | _ => none)

/-- Processing of one walk event by the callback of `SearchCache.Update`:
a walk error is returned (aborting the walk); directories and files whose
names do not contain `".rrd"` are skipped; an `Info` failure skips the
file; otherwise one item `fName ++ ":" ++ ds` is appended per datasource. -/
def walkStep (acc : List Str) : WalkEntry → Except Str (List Str)
  | .failed e => .error e
  | .dir _ => .ok acc
  | .file rel info =>
    if goContains rrdExt (lastComponent rel) then
      match info with
      | .error _ => .ok acc
      | .ok dss => .ok (acc ++ dss.map (fun ds => fNameOf rel ++ ':' :: ds))
    else .ok acc

/-- The whole walk of `SearchCache.Update`, folding `walkStep` over the
events while no walk error occurred. -/
def runWalk : List WalkEntry → List Str → Except Str (List Str)
  | [], acc => .ok acc
  | e :: rest, acc =>
    match walkStep acc e with
    | .error err => .error err
    | .ok acc2 => runWalk rest acc2

/-- `SearchCache.Update` (lines 148-209): on a walk error the previously
published items are kept unchanged (line 200-203); otherwise the newly
built list replaces them wholesale. -/
def cacheUpdate (old : List Str) (entries : List WalkEntry) : List Str :=
  match runWalk entries [] with
  | .error _ => old
  | .ok items => items

/-! # Theorems -/

section RetryLemmas

variable {α : Type}

theorem transientFailures_nil : transientFailures ([] : List (Except Str α)) = 0 := rfl

theorem transientFailures_cons (r : Except Str α) (l : List (Except Str α)) :
    transientFailures (r :: l) =
      (match r with
       | .error e => if isTransientErr e then 1 else 0
       | .ok _ => 0) + transientFailures l := by
  rcases r with e | v
  · by_cases ht : isTransientErr e
    · simp only [transientFailures, List.filter_cons, ht]
      simp
      omega
    · simp [transientFailures, List.filter_cons, ht]
  · simp [transientFailures, List.filter_cons]

/-- Each iteration of the retry loop consumes one available outcome. -/
theorem fetchRetryAux_attempts_le (le : Str) (a : Nat) (l : List (Except Str α)) :
    (fetchRetryAux le a l).attempts ≤ l.length := by
  induction l generalizing le a with
  | nil => simp [fetchRetryAux]
  | cons r rest ih =>
    rcases r with e | v
    · have h := ih e (a + 1)
      simp only [fetchRetryAux, List.length_cons]
      omega
    · simp [fetchRetryAux]

/-- The reconnections triggered by the retry loop are exactly the
transient failures among the outcomes it consumed. -/
theorem fetchRetryAux_reconnects (le : Str) (a : Nat) (l : List (Except Str α)) :
    (fetchRetryAux le a l).reconnects =
      transientFailures (l.take (fetchRetryAux le a l).attempts) := by
  induction l generalizing le a with
  | nil => rfl
  | cons r rest ih =>
    rcases r with e | v
    · have hcomm : (1 : Nat) + (fetchRetryAux e (a + 1) rest : RetryTrace α).attempts =
        (fetchRetryAux e (a + 1) rest : RetryTrace α).attempts + 1 := Nat.add_comm _ _
      simp only [fetchRetryAux, hcomm, List.take_succ_cons, transientFailures_cons, ih e (a + 1)]
    · have h1 : List.take (1 : Nat) (Except.ok v :: rest) = [Except.ok v] := rfl
      simp [fetchRetryAux, h1, transientFailures]

end RetryLemmas

/-- **C1.** Through the daemon backend, `fetchRRDData` issues at most 3
fetch attempts; no wait precedes the first attempt and the backoffs slept
before the retries are exactly 1s then 4s (`attempt²`), one per extra
attempt actually issued; every attempt that fails with a transient
(timeout / connection) error triggers exactly one reconnection of the
shared daemon connection (the reconnect count equals the number of
transient failures among the issued attempts); and when all three attempts
fail, the error of the last (third) attempt is the one returned. -/
theorem fetchRRDData_retry_policy {α : Type} (outcomes : List (Except Str α)) :
    (fetchRetry outcomes).attempts ≤ 3 ∧
    (fetchRetry outcomes).backoffs =
      List.take ((fetchRetry outcomes).attempts - 1) [1, 4] ∧
    (fetchRetry outcomes).reconnects =
      transientFailures (outcomes.take (fetchRetry outcomes).attempts) ∧
    (∀ e0 e1 e2 l,
      outcomes = Except.error e0 :: Except.error e1 :: Except.error e2 :: l →
      (fetchRetry outcomes).result = Except.error e2) := by
  have hle : (fetchRetry outcomes).attempts ≤ 3 := by
    have h1 := fetchRetryAux_attempts_le ([] : Str) 0 (outcomes.take 3)
    have h2 : (outcomes.take 3).length ≤ 3 := by
      rw [List.length_take]
      exact Nat.min_le_left _ _
    exact le_trans h1 h2
  refine ⟨hle, ?_, ?_, ?_⟩
  · rcases outcomes with _ | ⟨r0, _ | ⟨r1, _ | ⟨r2, rest⟩⟩⟩
    · rfl
    · rcases r0 with e0 | v0 <;> rfl
    · rcases r0 with e0 | v0 <;> rcases r1 with e1 | v1 <;> rfl
    · rcases r0 with e0 | v0 <;> rcases r1 with e1 | v1 <;> rcases r2 with e2 | v2 <;> rfl
  · have h := fetchRetryAux_reconnects ([] : Str) 0 (outcomes.take 3)
    show (fetchRetryAux [] 0 (outcomes.take 3)).reconnects = _
    rw [h, List.take_take]
    have hmin : min (fetchRetryAux ([] : Str) 0 (outcomes.take 3) :
        RetryTrace α).attempts 3 = (fetchRetryAux ([] : Str) 0 (outcomes.take 3) :
        RetryTrace α).attempts := Nat.min_eq_left hle
    rw [hmin]
    rfl
  · intro e0 e1 e2 l h
    subst h
    rfl

/-- Concrete daemon behaviour for the C1 witness: two transient failures,
then a success. -/
def c1Outcomes : List (Except Str Nat) :=
  [Except.error "read tcp: i/o timeout".toList,
   Except.error "dial tcp: connection refused".toList,
   Except.ok 42]

/-- Concrete daemon behaviour where all three attempts fail. -/
def c1AllFail : List (Except Str Nat) :=
  [Except.error "read tcp: i/o timeout".toList,
   Except.error "dial tcp: connection refused".toList,
   Except.error "broken pipe".toList]

/-- Witness for C1, realising the spec's scenario: two consecutive
transient failures followed by a success make 3 attempts, trigger exactly
2 reconnects and sleep 1s then 4s before returning the success; and on
three straight failures the third error is the one surfaced. -/
theorem fetchRRDData_retry_policy_witness :
    (fetchRetry c1Outcomes).attempts = 3 ∧
    (fetchRetry c1Outcomes).backoffs = [1, 4] ∧
    (fetchRetry c1Outcomes).reconnects = 2 ∧
    (fetchRetry c1Outcomes).result = Except.ok 42 ∧
    (fetchRetry c1AllFail).result = Except.error "broken pipe".toList := by
  refine ⟨rfl, ?_, ?_, rfl, ?_⟩
  · have h := (fetchRRDData_retry_policy c1Outcomes).2.1
    rw [h]
    rfl
  · have h := (fetchRRDData_retry_policy c1Outcomes).2.2.1
    rw [h]
    decide
  · exact (fetchRRDData_retry_policy c1AllFail).2.2.2
      "read tcp: i/o timeout".toList "dial tcp: connection refused".toList
      "broken pipe".toList [] rfl

/-- **C10.** A `/search` request whose target is the empty string returns
the empty list whatever the snapshot holds; a non-empty target is
substring-matched against every snapshot item. -/
theorem search_empty_target (items : List Str) :
    searchFilter items [] = [] ∧
    (∀ t : Str, t ≠ [] →
      searchFilter items t = items.filter (fun p => goContains t p)) := by
  constructor
  · simp [searchFilter]
  · intro t ht
    simp [searchFilter, ht]

/-- Witness for C10 at a concrete non-empty snapshot: the empty target
still yields the empty list, while a non-empty target matches. -/
theorem search_empty_target_witness :
    searchFilter ["a:b:c".toList] [] = [] ∧
    searchFilter ["a:b:c".toList] "b".toList = ["a:b:c".toList] := by
  constructor
  · exact (search_empty_target ["a:b:c".toList]).1
  · rw [(search_empty_target ["a:b:c".toList]).2 "b".toList (by decide)]
    decide

/-- **C6.** If the storage-tree walk of a refresh cycle fails, the refresh
aborts without modifying the index: whenever the walk aborts with an error
— in particular whenever any walk event delivers an error to the callback
— the previously published snapshot is retained exactly. -/
theorem cache_update_walk_failure (old : List Str) (entries : List WalkEntry) :
    (∀ e, runWalk entries [] = Except.error e → cacheUpdate old entries = old) ∧
    (∀ msg, WalkEntry.failed msg ∈ entries → cacheUpdate old entries = old) := by
  constructor
  · intro e he
    unfold cacheUpdate
    rw [he]
  · intro msg hmem
    have key : ∀ (l : List WalkEntry), WalkEntry.failed msg ∈ l →
        ∀ acc : List Str, ∃ e, runWalk l acc = Except.error e := by
      intro l
      induction l with
      | nil => intro h; cases h
      | cons hd tl ih =>
        intro h acc
        rcases List.mem_cons.mp h with heq | htl
        · rw [← heq]
          exact ⟨msg, rfl⟩
        · rcases hw : walkStep acc hd with e2 | acc2
          · exact ⟨e2, by simp [runWalk, hw]⟩
          · rcases ih htl acc2 with ⟨e2, he2⟩
            exact ⟨e2, by simp [runWalk, hw, he2]⟩
    rcases key entries hmem [] with ⟨e, he⟩
    unfold cacheUpdate
    rw [he]

/-- Witness for C6: a concrete walk whose second event is a walk error
leaves a concrete previous snapshot untouched. -/
theorem cache_update_walk_failure_witness :
    cacheUpdate ["old:item".toList]
      [WalkEntry.dir "sub".toList, WalkEntry.failed "permission denied".toList] =
      ["old:item".toList] := by
  exact (cache_update_walk_failure ["old:item".toList]
    [WalkEntry.dir "sub".toList, WalkEntry.failed "permission denied".toList]).2
    "permission denied".toList (List.Mem.tail _ (List.Mem.head _))

/-! ## The query loop (`query`, lines 444-556)

Per target, `query` expands the wildcard path to a list of files (the
`zglob.Glob` result, an oracle here) and then, per file: checks existence
(`os.Stat`), obtains the last-update time and datasource column index via
`Info`, clamps the **request-level** variable `to` against the file's
last-update time, fetches, and projects the fetched rows into datapoints.
Failures of `Stat`/`Info`/`Fetch` skip the file with a log line and
`continue`; they never fail the request.  The variables `from` and `to`
are declared once for the whole request (lines 462-463), so the clamp at
lines 515-517 writes through to every later file of every later target.

Times are `Int` Unix seconds; a fetched sample is `Option ℚ` (`none` for
the not-a-number marker).  `projectPoints` mirrors the projection loop of
lines 535-547: iterate `i` over the first `rowCnt - 1` rows (the last row
is dropped, line 538), guard `dsIndex < len(fetchData[i])`, drop
not-a-number samples, and emit `[multiplier * value, timestampMillis]`,
the timestamp advancing by the fetch step each row.  The embedding models
the direct-access variant's `Info` (which yields the datasource index
directly); the daemon variant differs only in how `dsIndex` is obtained,
not in the loop structure below. -/

/-- Result of a successful `fetchRRDData` call: actual start, step and
rows (`rowCnt` in the source is always the number of rows returned). -/
structure FetchOut where
  start : Int
  step : Int
  rows : List (List (Option ℚ))

/-- The projection loop of `query` (lines 535-547).  `rows.get? i` is the
row access `fetchData[i]` and `row.get? dsIndex` renders the guard
`dsIndex < len(fetchData[i])`; a `some none` sample is a not-a-number
value and is dropped. -/
def projectPoints (mult : Int) (dsIndex : Nat) (start step : Int)
    (rows : List (List (Option ℚ))) (rowCnt : Nat) : List (ℚ × Int) :=
  (List.range (rowCnt - 1)).filterMap (fun i =>
    match (rows.get? i).bind (fun row => row.get? dsIndex) with
    | some (some v) => some ((mult : ℚ) * v, (start + step * (i : Int)) * 1000)
    | _ => none)

/-- One file resolved by a target's glob, with the outcomes of the
external calls `query` makes for it: `os.Stat` (line 475), `Info`
(last-update time and datasource index, lines 484-513) and `fetchRRDData`
(line 519). -/
structure QFile where
  statOk : Bool
  info : Except Str (Int × Nat)
  fetch : Except Str FetchOut

/-- What happened to one file inside the query loop: skipped at the
`Stat`, `Info` or `Fetch` stage, or projected into datapoints.  The
`fetchFrom`/`fetchTo` fields record the time range actually passed to
`fetchRRDData` for that file. -/
inductive FileStep where
  | skipStat : FileStep
  | skipInfo : FileStep
  | skipFetch (fetchFrom fetchTo : Int) : FileStep
  | emit (fetchFrom fetchTo : Int) (points : List (ℚ × Int)) : FileStep
  deriving DecidableEq

/-- The range clamp of `query` (lines 515-517):
`if to.After(lastUpdate) && lastUpdate.After(from) { to = lastUpdate }`. -/
def clampTo (frm t lu : Int) : Int :=
  if lu < t ∧ frm < lu then lu else t

/-- Processing of one resolved file in the query loop (lines 473-552),
given the current value `t` of the request-level `to` variable.
Returns what happened plus the updated value of `to`. -/
def processFile (mult : Int) (frm t : Int) (file : QFile) : FileStep × Int :=
  if !file.statOk then (.skipStat, t)
  else
    match file.info with
    | .error _ => (.skipInfo, t)
    | .ok (lu, dsIndex) =>
      let t2 := clampTo frm t lu
      match file.fetch with
      | .error _ => (.skipFetch frm t2, t2)
      | .ok fo =>
        (.emit frm t2 (projectPoints mult dsIndex fo.start fo.step fo.rows fo.rows.length), t2)

/-- The inner `for _, filePath := range fileNameArray` loop, threading the
request-level `to` variable. -/
def processFiles (mult : Int) (frm : Int) : Int → List QFile → List FileStep × Int
  | t, [] => ([], t)
  | t, file :: rest =>
    let s := processFile mult frm t file
    let r := processFiles mult frm s.2 rest
    (s.1 :: r.1, r.2)

/-- The outer `for _, target := range queryRequest.Targets` loop; each
target is represented by its glob result (possibly empty).  The
request-level `to` variable continues to be threaded across targets. -/
def processTargets (mult : Int) (frm : Int) : Int → List (List QFile) → List FileStep × Int
  | t, [] => ([], t)
  | t, tgt :: rest =>
    let s := processFiles mult frm t tgt
    let r := processTargets mult frm s.2 rest
    (s.1 ++ r.1, r.2)

/-- The datapoint lists of the entries appended to `result` (line 552):
only files that survive every stage contribute. -/
def FileStep.points? : FileStep → Option (List (ℚ × Int))
  | .emit _ _ pts => some pts
  | _ => none

/-- The `to` actually passed to `fetchRRDData` for a file, when the file
reached the fetch stage. -/
def FileStep.fetchTo? : FileStep → Option Int
  | .skipFetch _ t => some t
  | .emit _ t _ => some t
  | _ => none

/-- Whether a file step reached the projection stage. -/
def FileStep.isEmit : FileStep → Bool
  | .emit _ _ _ => true
  | _ => false

/-- The sequence of datapoint lists in the query response, in order. -/
def queryResponses (mult : Int) (frm t : Int) (targets : List (List QFile)) :
    List (List (ℚ × Int)) :=
  (processTargets mult frm t targets).1.filterMap FileStep.points?

/-- The clamp effect of one file on the request-level `to` variable: only
a file that passes `Stat` and `Info` clamps. -/
def clampStep (frm : Int) (t : Int) (file : QFile) : Int :=
  if !file.statOk then t
  else
    match file.info with
    | .error _ => t
    | .ok (lu, _) => clampTo frm t lu

theorem processFile_snd (mult : Int) (frm t : Int) (file : QFile) :
    (processFile mult frm t file).2 = clampStep frm t file := by
  unfold processFile clampStep
  rcases hst : file.statOk with _ | _
  · simp
  · rcases hinfo : file.info with e | ⟨lu, ds⟩
    · simp [hinfo]
    · rcases hf : file.fetch with e | fo <;> simp [hinfo, hf]

theorem projectPoints_congr_rows (mult : Int) (ds : Nat) (s st : Int)
    (rows1 rows2 : List (List (Option ℚ))) (rowCnt : Nat)
    (h : ∀ i < rowCnt - 1, rows1.get? i = rows2.get? i) :
    projectPoints mult ds s st rows1 rowCnt = projectPoints mult ds s st rows2 rowCnt := by
  unfold projectPoints
  apply List.filterMap_congr
  intro i hi
  rw [List.mem_range] at hi
  rw [h i hi]

/-- **C3.** The final row of a successful fetch is never projected into
the query output, even when it holds a valid non-NaN value (the result is
the same whatever that last row contains); exactly the first `rowCnt - 1`
rows are considered (projecting from the full row list and from the list
with the last row removed coincide). -/
theorem query_drops_last_row (mult : Int) (ds : Nat) (s st : Int)
    (rows : List (List (Option ℚ))) (lastRow lastRow2 : List (Option ℚ)) :
    projectPoints mult ds s st (rows ++ [lastRow]) (rows ++ [lastRow]).length =
      projectPoints mult ds s st (rows ++ [lastRow2]) (rows ++ [lastRow2]).length ∧
    projectPoints mult ds s st (rows ++ [lastRow]) (rows ++ [lastRow]).length =
      projectPoints mult ds s st rows (rows ++ [lastRow]).length := by
  have hlen : ∀ r : List (Option ℚ), (rows ++ [r]).length = rows.length + 1 := by
    intro r
    simp
  have hget : ∀ (r : List (Option ℚ)) (i : Nat), i < rows.length →
      (rows ++ [r]).get? i = rows.get? i := by
    intro r i hi
    rw [List.get?_append hi]
  constructor
  · rw [hlen lastRow, hlen lastRow2]
    apply projectPoints_congr_rows
    intro i hi
    simp only [Nat.add_sub_cancel] at hi
    rw [hget _ i hi, hget _ i hi]
  · rw [hlen lastRow]
    apply projectPoints_congr_rows
    intro i hi
    simp only [Nat.add_sub_cancel] at hi
    exact hget _ i hi

/-- Witness for C3 at concrete rows: a last row holding the valid value 7
is dropped, and the output equals that of the same fetch with the last row
replaced by a NaN row. -/
theorem query_drops_last_row_witness :
    projectPoints 1 0 0 1 [[some 3], [some 7]] 2 =
      projectPoints 1 0 0 1 [[some 3], [none]] 2 ∧
    projectPoints 1 0 0 1 [[some 3], [some 7]] 2 = [(3, 0)] := by
  constructor
  · exact (query_drops_last_row 1 0 0 1 [[some 3]] [some 7] [none]).1
  · have hr : List.range (2 - 1) = [0] := rfl
    simp [projectPoints, hr, List.filterMap, List.get?]

/-- **C4.** A datapoint appears in the projection exactly when some row
among the first `rowCnt - 1` has, at the resolved datasource column, a
numeric (non-NaN) value `v`; the emitted datapoint is then exactly
`(multiplier * v, rowTimestampSeconds * 1000)` where the row's timestamp
is `start + step * i`.  In particular not-a-number samples are omitted. -/
theorem query_point_projection (mult : Int) (ds : Nat) (s st : Int)
    (rows : List (List (Option ℚ))) (rowCnt : Nat) (p : ℚ × Int) :
    p ∈ projectPoints mult ds s st rows rowCnt ↔
      ∃ i, i < rowCnt - 1 ∧ ∃ row, rows.get? i = some row ∧
        ∃ v : ℚ, row.get? ds = some (some v) ∧
          p = ((mult : ℚ) * v, (s + st * (i : Int)) * 1000) := by
  unfold projectPoints
  rw [List.mem_filterMap]
  constructor
  · rintro ⟨i, hi, hf⟩
    rw [List.mem_range] at hi
    rcases hb : (rows.get? i).bind (fun row => row.get? ds) with _ | ov
    · rw [hb] at hf
      simp at hf
    · rcases ov with _ | v
      · rw [hb] at hf
        simp at hf
      · rw [hb] at hf
        simp only [Option.some.injEq] at hf
        rcases Option.bind_eq_some.mp hb with ⟨row, hrow, hval⟩
        exact ⟨i, hi, row, hrow, v, hval, hf.symm⟩
  · rintro ⟨i, hi, row, hrow, v, hval, hp⟩
    refine ⟨i, List.mem_range.mpr hi, ?_⟩
    have hb : (rows.get? i).bind (fun row => row.get? ds) = some (some v) :=
      Option.bind_eq_some.mpr ⟨row, hrow, hval⟩
    rw [hb, hp]

/-- Witness for C4, realising the spec's example: multiplier 10 and raw
value 2.5 yield the datapoint 25.0 (at timestamp `(5 + 10*0) * 1000`),
while the NaN row contributes nothing. -/
theorem query_point_projection_witness :
    ((25 : ℚ), 5000) ∈ projectPoints 10 0 5 10 [[some (5/2)], [none], [some 1]] 3 ∧
    projectPoints 10 0 5 10 [[some (5/2)], [none], [some 1]] 3 = [(25, 5000)] := by
  constructor
  · exact (query_point_projection 10 0 5 10 [[some (5/2)], [none], [some 1]] 3
      ((25 : ℚ), 5000)).mpr
      ⟨0, by norm_num, [some (5/2)], rfl, 5/2, rfl, by norm_num⟩
  · have hr : List.range (3 - 1) = [0, 1] := rfl
    simp [projectPoints, hr, List.filterMap, List.get?]
    norm_num

section QueryLoopLemmas

theorem processFiles_snd (mult frm : Int) (t : Int) (files : List QFile) :
    (processFiles mult frm t files).2 = List.foldl (clampStep frm) t files := by
  induction files generalizing t with
  | nil => rfl
  | cons file rest ih =>
    simp only [processFiles, List.foldl_cons]
    rw [ih, processFile_snd]

theorem processFiles_length (mult frm : Int) (t : Int) (files : List QFile) :
    (processFiles mult frm t files).1.length = files.length := by
  induction files generalizing t with
  | nil => rfl
  | cons file rest ih =>
    simp only [processFiles, List.length_cons]
    rw [ih]

theorem processFiles_get (mult frm : Int) (t : Int) (files : List QFile) (k : Nat) :
    (processFiles mult frm t files).1.get? k =
      (files.get? k).map (fun file =>
        (processFile mult frm (List.foldl (clampStep frm) t (files.take k)) file).1) := by
  induction files generalizing t k with
  | nil => simp [processFiles]
  | cons file rest ih =>
    rcases k with _ | k
    · simp [processFiles, List.take]
    · simp only [processFiles, List.get?_cons_succ, List.take_succ_cons, List.foldl_cons]
      rw [ih, processFile_snd]

theorem processTargets_skip_empty (mult frm : Int) (t : Int)
    (pre post : List (List QFile)) :
    processTargets mult frm t (pre ++ [] :: post) = processTargets mult frm t (pre ++ post) := by
  induction pre generalizing t with
  | nil => simp [processTargets, processFiles]
  | cons tgt pre ih =>
    simp only [List.cons_append, processTargets, List.append_eq]
    rw [ih]

theorem filterMap_points_length (l : List FileStep) :
    (l.filterMap FileStep.points?).length = (l.filter FileStep.isEmit).length := by
  induction l with
  | nil => rfl
  | cons s rest ih =>
    rcases s with _ | _ | ⟨a, b⟩ | ⟨a, b, pts⟩ <;>
      simp [List.filterMap_cons, List.filter_cons, FileStep.points?, FileStep.isEmit, ih]

end QueryLoopLemmas

/-- **C9.** The range clamp writes the file's last-update time into the
request-level `to` variable shared by the whole loop: after processing a
prefix of files the variable holds the left fold of the clamp over that
prefix, each file `k` is processed with the folded (possibly clamped)
value from the `k` earlier files — not the originally requested `to` —
and for a file that passes `Stat` and `Info` the clamp step is exactly
`clampTo` against that file's last-update time. -/
theorem query_to_threading (mult frm t : Int) (files : List QFile) (k : Nat) :
    (processFiles mult frm t files).2 = List.foldl (clampStep frm) t files ∧
    (processFiles mult frm t files).1.get? k =
      (files.get? k).map (fun file =>
        (processFile mult frm (List.foldl (clampStep frm) t (files.take k)) file).1) ∧
    (∀ file lu ds, file.statOk = true → file.info = Except.ok (lu, ds) →
      clampStep frm t file = clampTo frm t lu) := by
  refine ⟨processFiles_snd mult frm t files, processFiles_get mult frm t files k, ?_⟩
  intro file lu ds h1 h2
  simp [clampStep, h1, h2]

/-- First file of the C2/C9 scenario: exists, last-update 5, fetch fails. -/
def c2File1 : QFile :=
  ⟨true, Except.ok (5, 0), Except.error "fetch failed".toList⟩

/-- Second file of the C2/C9 scenario: exists, last-update 7, fetch fails. -/
def c2File2 : QFile :=
  ⟨true, Except.ok (7, 0), Except.error "fetch failed".toList⟩

/-- Witness for C9, at `from = 0`, requested `to = 10`, two files with
last-update times 5 and 7: after the loop the shared variable holds 5
(file 1 clamped it and file 2 left it), and the clamp step of file 1 is
`clampTo` against its last-update time. -/
theorem query_to_threading_witness :
    (processFiles 1 0 10 [c2File1, c2File2]).2 = 5 ∧
    clampStep 0 10 c2File1 = clampTo 0 10 5 := by
  constructor
  · rw [(query_to_threading 1 0 10 [c2File1, c2File2] 0).1]
    decide
  · exact (query_to_threading 1 0 10 [c2File1, c2File2] 0).2.2 c2File1 5 0 rfl rfl

/-- Counterexample to C2 as stated.  With `from = 0` and requested
`to = 10`, after a first file with last-update 5 has clamped the shared
variable, a second file with last-update 7 satisfies the claim's premise
(requested `to = 10` is strictly after 7, and `from = 0` strictly before
it), so the claim demands that the end passed to the backend fetch be
`clampTo 0 10 7 = 7`; the code passes 5. -/
theorem query_clamp_counterexample :
    ((processFiles 1 0 10 [c2File1, c2File2]).1.get? 1).bind FileStep.fetchTo? = some 5 ∧
    ¬ (((processFiles 1 0 10 [c2File1, c2File2]).1.get? 1).bind FileStep.fetchTo? =
        some (clampTo 0 10 7)) := by
  constructor <;> decide

/-- **C2 (amended).** For every file resolved by a query target that
passes `Stat` and `Info`, the end time passed to the backend fetch equals
`clampTo from cur lastUpdate`, where `cur` is the current value of the
request-level end variable (the requested `to` as possibly already clamped
by earlier files): if `cur` is strictly after the file's last-update time
and `from` strictly before it, the fetch end is the last-update time
exactly; otherwise `cur` is used unchanged. -/
theorem query_clamp_effective_end (mult frm t : Int) (files : List QFile)
    (k : Nat) (file : QFile) (lu : Int) (ds : Nat)
    (hk : files.get? k = some file) (hstat : file.statOk = true)
    (hinfo : file.info = Except.ok (lu, ds)) :
    ((processFiles mult frm t files).1.get? k).bind FileStep.fetchTo? =
      some (clampTo frm (List.foldl (clampStep frm) t (files.take k)) lu) := by
  rw [processFiles_get, hk]
  rcases hf : file.fetch with e | fo <;>
    simp [processFile, hstat, hinfo, hf, FileStep.fetchTo?]

/-- Witness for C2 (amended): the second file of the scenario gets fetch
end `clampTo 0 5 7 = 5`, the current (already clamped) end. -/
theorem query_clamp_effective_end_witness :
    ((processFiles 1 0 10 [c2File1, c2File2]).1.get? 1).bind FileStep.fetchTo? =
      some (clampTo 0 (List.foldl (clampStep 0) 10 (List.take 1 [c2File1, c2File2])) 7) :=
  query_clamp_effective_end 1 0 10 [c2File1, c2File2] 1 c2File2 7 0 rfl rfl rfl

/-- **C7.** A target whose wildcard pattern matches no file contributes
nothing to the query response and causes no error (removing an
empty-glob target leaves the whole processing outcome unchanged); every
file is processed (no per-file failure aborts the loop); the response has
exactly one datapoint list per file that reached projection; and the
points of every file that succeeded are in the response. -/
theorem query_partial_failure (mult frm t : Int) (pre post tgts : List (List QFile))
    (files : List QFile) :
    processTargets mult frm t (pre ++ [] :: post) = processTargets mult frm t (pre ++ post) ∧
    (processFiles mult frm t files).1.length = files.length ∧
    (queryResponses mult frm t tgts).length =
      ((processTargets mult frm t tgts).1.filter FileStep.isEmit).length ∧
    (∀ a b pts, FileStep.emit a b pts ∈ (processTargets mult frm t tgts).1 →
      pts ∈ queryResponses mult frm t tgts) := by
  refine ⟨processTargets_skip_empty mult frm t pre post,
    processFiles_length mult frm t files,
    filterMap_points_length _, ?_⟩
  intro a b pts hmem
  exact List.mem_filterMap.mpr ⟨FileStep.emit a b pts, hmem, rfl⟩

/-- Witness for C7: with a first target matching nothing and a second
resolving two files (one whose fetch fails, one that succeeds), the
response consists exactly of the successful file's datapoints. -/
theorem query_partial_failure_witness :
    queryResponses 1 0 10 [[], [c2File1, ⟨true, Except.ok (7, 0),
        Except.ok ⟨0, 1, [[some 2], [some 9]]⟩⟩]] = [[(2, 0)]] ∧
    processTargets 1 0 10 ([] ++ [] :: [[c2File1]]) = processTargets 1 0 10 ([] ++ [[c2File1]]) ∧
    (2, 0) ∈ projectPoints 1 0 0 1 [[some 2], [some 9]] 2 := by
  refine ⟨?_, (query_partial_failure 1 0 10 [] [[c2File1]] [] []).1, ?_⟩
  · have hr : List.range (2 - 1) = [0] := rfl
    simp [queryResponses, processTargets, processFiles, processFile, c2File1,
      clampTo, clampStep, FileStep.points?, projectPoints, hr, List.filterMap, List.get?]
  · have hr : List.range (2 - 1) = [0] := rfl
    simp [projectPoints, hr, List.filterMap, List.get?]

/-! ## Structure of colon-joined identifiers

Shared machinery for the snapshot invariant (identifiers built by
`SearchCache.Update`) and for the `/ls` directory view: splitting a string
at `:` and joining segment lists with a separator character. -/

/-- Prepend a character to the first piece of a split (helper for
`splitColon`). -/
def consHead (c : Char) : List Str → List Str
  | [] => [[c]]
  | s :: ss => (c :: s) :: ss

/-- `strings.Split p ":"`: split at every colon (always at least one
piece). -/
def splitColon : Str → List Str
  | [] => [[]]
  | c :: rest =>
    if c = ':' then [] :: splitColon rest else consHead c (splitColon rest)

/-- `strings.Join l (String sep)`: interleave the separator. -/
def joinSep (sep : Char) : List Str → Str
  | [] => []
  | [s] => s
  | s :: r :: rest => s ++ sep :: joinSep sep (r :: rest)

theorem splitColon_ne_nil (p : Str) : splitColon p ≠ [] := by
  induction p with
  | nil => simp [splitColon]
  | cons c rest ih =>
    by_cases h : c = ':'
    · simp [splitColon, h]
    · simp only [splitColon, if_neg h]
      rcases hs : splitColon rest with _ | ⟨s, ss⟩
      · exact absurd hs ih
      · simp [consHead]

theorem takeWhile_all_append (p : Char → Bool) (l1 l2 : Str)
    (h : ∀ c ∈ l1, p c = true) :
    (l1 ++ l2).takeWhile p = l1 ++ l2.takeWhile p ∧
    (l1 ++ l2).dropWhile p = l2.dropWhile p := by
  induction l1 with
  | nil => simp
  | cons c rest ih =>
    have hc : p c = true := h c (List.Mem.head _)
    have ih2 := ih (fun d hd => h d (List.Mem.tail _ hd))
    simp only [List.cons_append, List.takeWhile_cons, List.dropWhile_cons, hc,
      if_pos, ite_true]
    exact ⟨by rw [ih2.1], by rw [ih2.2]⟩

theorem goContains_append_self (sub a : Str) : goContains sub (a ++ sub) = true := by
  induction a with
  | nil =>
    rcases sub with _ | ⟨c, rest⟩
    · rfl
    · show goContains (c :: rest) (c :: rest) = true
      simp [goContains, List.isPrefixOf_iff_prefix]
  | cons c rest ih =>
    show (sub.isPrefixOf (c :: (rest ++ sub)) || goContains sub (rest ++ sub)) = true
    rw [ih]
    simp

theorem splitColon_single (s : Str) (h : ∀ c ∈ s, c ≠ ':') :
    splitColon s = [s] := by
  induction s with
  | nil => rfl
  | cons c rest ih =>
    have hc : ¬ c = ':' := h c (List.Mem.head _)
    rw [splitColon, if_neg hc, ih (fun d hd => h d (List.Mem.tail _ hd))]
    rfl

theorem splitColon_append_colon (s z : Str) (h : ∀ c ∈ s, c ≠ ':') :
    splitColon (s ++ ':' :: z) = s :: splitColon z := by
  induction s with
  | nil => simp [splitColon]
  | cons c rest ih =>
    have hc : ¬ c = ':' := h c (List.Mem.head _)
    rw [List.cons_append, splitColon, if_neg hc,
      ih (fun d hd => h d (List.Mem.tail _ hd))]
    rfl

theorem joinSep_cons_cons (sep : Char) (s r : Str) (rest : List Str) :
    joinSep sep (s :: r :: rest) = s ++ sep :: joinSep sep (r :: rest) := rfl

theorem joinSep_append_singleton (sep : Char) (l : List Str) (x : Str) (h : l ≠ []) :
    joinSep sep (l ++ [x]) = joinSep sep l ++ sep :: x := by
  induction l with
  | nil => exact absurd rfl h
  | cons s rest ih =>
    rcases rest with _ | ⟨r, rest⟩
    · rfl
    · have h2 : joinSep sep ((s :: r :: rest) ++ [x]) =
        s ++ sep :: joinSep sep ((r :: rest) ++ [x]) := rfl
      rw [h2, ih (by simp), joinSep_cons_cons]
      simp

theorem splitColon_join (segs : List Str) (hne : segs ≠ [])
    (h : ∀ s ∈ segs, ∀ c ∈ s, c ≠ ':') :
    splitColon (joinSep ':' segs) = segs := by
  induction segs with
  | nil => exact absurd rfl hne
  | cons s rest ih =>
    rcases rest with _ | ⟨r, rest⟩
    · exact splitColon_single s (h s (List.Mem.head _))
    · rw [joinSep_cons_cons,
        splitColon_append_colon s _ (h s (List.Mem.head _)),
        ih (by simp) (fun x hx => h x (List.Mem.tail _ hx))]

theorem mem_joinSep_chars (sep : Char) (l : List Str) (c : Char)
    (hc : c ∈ joinSep sep l) : c = sep ∨ ∃ s ∈ l, c ∈ s := by
  induction l with
  | nil => cases hc
  | cons s rest ih =>
    rcases rest with _ | ⟨r, rest⟩
    · exact Or.inr ⟨s, List.Mem.head _, hc⟩
    · rw [joinSep_cons_cons] at hc
      rcases List.mem_append.mp hc with h1 | h2
      · exact Or.inr ⟨s, List.Mem.head _, h1⟩
      · rcases List.mem_cons.mp h2 with h3 | h4
        · exact Or.inl h3
        · rcases ih h4 with h5 | ⟨x, hx, hcx⟩
          · exact Or.inl h5
          · exact Or.inr ⟨x, List.Mem.tail _ hx, hcx⟩

theorem mapSep_eq_self (s : Str) (h : ∀ c ∈ s, c ≠ '/') : mapSep s = s := by
  unfold mapSep
  induction s with
  | nil => rfl
  | cons c rest ih =>
    rw [List.map_cons, if_neg (h c (List.Mem.head _)),
      ih (fun d hd => h d (List.Mem.tail _ hd))]

theorem mapSep_append (s1 s2 : Str) : mapSep (s1 ++ s2) = mapSep s1 ++ mapSep s2 := by
  unfold mapSep
  rw [List.map_append]

theorem mapSep_join (comps : List Str)
    (h : ∀ s ∈ comps, ∀ c ∈ s, c ≠ '/') :
    mapSep (joinSep '/' comps) = joinSep ':' comps := by
  induction comps with
  | nil => rfl
  | cons s rest ih =>
    rcases rest with _ | ⟨r, rest⟩
    · exact mapSep_eq_self s (h s (List.Mem.head _))
    · rw [joinSep_cons_cons, mapSep_append, mapSep_eq_self s (h s (List.Mem.head _))]
      have h2 : mapSep ('/' :: joinSep '/' (r :: rest)) =
          ':' :: mapSep (joinSep '/' (r :: rest)) := by
        unfold mapSep
        rw [List.map_cons, if_pos rfl]
      rw [h2, ih (fun x hx => h x (List.Mem.tail _ hx)), joinSep_cons_cons]

theorem replaceFirstRrd_ext (a : Str) (h : ∀ c ∈ a, c ≠ '.') :
    replaceFirstRrd (a ++ rrdExt) = a := by
  induction a with
  | nil => rfl
  | cons c rest ih =>
    have hc : c ≠ '.' := h c (List.Mem.head _)
    rw [List.cons_append, replaceFirstRrd]
    have hpre : rrdExt.isPrefixOf (c :: (rest ++ rrdExt)) = false := by
      show List.isPrefixOf ('.' :: ['r', 'r', 'd']) _ = false
      rw [Bool.eq_false_iff]
      intro hp
      rcases (List.isPrefixOf_iff_prefix.mp hp) with ⟨t, ht⟩
      rw [List.cons_append] at ht
      have : '.' = c := (List.cons.injEq _ _ _ _ ▸ ht).1
      exact hc this.symm
    rw [hpre]
    simp only [Bool.false_eq_true, if_false]
    rw [ih (fun d hd => h d (List.Mem.tail _ hd))]

theorem lastComponent_append_ext (x : Str) :
    ∃ y, lastComponent (x ++ rrdExt) = y ++ rrdExt := by
  unfold lastComponent
  rw [List.reverse_append]
  have h := (takeWhile_all_append (fun c => decide (c ≠ '/')) rrdExt.reverse x.reverse
    (by decide)).1
  rw [h]
  refine ⟨(x.reverse.takeWhile (fun c => decide (c ≠ '/'))).reverse, ?_⟩
  rw [List.reverse_append, List.reverse_reverse]

theorem goContains_lastComponent (x : Str) :
    goContains rrdExt (lastComponent (x ++ rrdExt)) = true := by
  rcases lastComponent_append_ext x with ⟨y, hy⟩
  rw [hy]
  exact goContains_append_self rrdExt y

/-- Well-formedness of a walked archive file, as the amended snapshot
invariant assumes it: the relative path is a non-empty list of path
components joined by `/` and terminated by the `.rrd` extension, the
components are free of `:`, `/` and `.`, and the datasource names the
`Info` call reports are free of `:`. -/
def wfEntry : WalkEntry → Prop
  | .file rel info =>
      ∃ comps, comps ≠ [] ∧ rel = joinSep '/' comps ++ rrdExt ∧
        (∀ s ∈ comps, ∀ c ∈ s, c ≠ ':' ∧ c ≠ '/' ∧ c ≠ '.') ∧
        (∀ dss, info = Except.ok dss → ∀ ds ∈ dss, ∀ c ∈ ds, c ≠ ':')
  | _ => True

/-- The identifier `SearchCache.Update` builds for a well-formed file and
one of its datasources splits back into the path components followed by
the datasource name. -/
theorem item_splits (comps : List Str) (ds : Str)
    (hne : comps ≠ [])
    (hc : ∀ s ∈ comps, ∀ c ∈ s, c ≠ ':' ∧ c ≠ '/' ∧ c ≠ '.')
    (hds : ∀ c ∈ ds, c ≠ ':') :
    splitColon (fNameOf (joinSep '/' comps ++ rrdExt) ++ ':' :: ds) = comps ++ [ds] := by
  have h1 : replaceFirstRrd (joinSep '/' comps ++ rrdExt) = joinSep '/' comps := by
    apply replaceFirstRrd_ext
    intro c hcmem
    rcases mem_joinSep_chars '/' comps c hcmem with h | ⟨s, hs, hcs⟩
    · rw [h]
      decide
    · exact (hc s hs c hcs).2.2
  have h2 : mapSep (joinSep '/' comps) = joinSep ':' comps :=
    mapSep_join comps (fun s hs c hcs => (hc s hs c hcs).2.1)
  unfold fNameOf
  rw [h1, h2, ← joinSep_append_singleton ':' comps ds hne]
  apply splitColon_join
  · simp
  · intro s hs c hcs
    rcases List.mem_append.mp hs with h | h
    · exact (hc s h c hcs).1
    · rw [List.mem_singleton] at h
      subst h
      exact hds c hcs

theorem walkFileRels_mono (e : WalkEntry) (rest : List WalkEntry) (rel : Str)
    (h : rel ∈ walkFileRels rest) : rel ∈ walkFileRels (e :: rest) := by
  unfold walkFileRels at h ⊢
  rcases List.mem_filterMap.mp h with ⟨a, ha, hfa⟩
  exact List.mem_filterMap.mpr ⟨a, List.Mem.tail _ ha, hfa⟩

/-- Every item a completed (successful) walk appends comes from a walked
file: it splits as path components plus datasource, and the components
rejoined with `/` and the `.rrd` extension give that file's path. -/
theorem runWalk_items (entries : List WalkEntry) :
    ∀ acc items, (∀ e ∈ entries, wfEntry e) → runWalk entries acc = Except.ok items →
    ∀ item ∈ items, item ∈ acc ∨
      (2 ≤ (splitColon item).length ∧
       joinSep '/' ((splitColon item).dropLast) ++ rrdExt ∈ walkFileRels entries) := by
  induction entries with
  | nil =>
    intro acc items _ hrun item hitem
    have hai : acc = items := by
      have h : Except.ok acc = (Except.ok items : Except Str (List Str)) := hrun
      injection h
    subst hai
    exact Or.inl hitem
  | cons e rest ih =>
    intro acc items hwf hrun item hitem
    rw [runWalk] at hrun
    rcases hw : walkStep acc e with err | acc2
    · rw [hw] at hrun
      cases hrun
    · rw [hw] at hrun
      have hrest := ih acc2 items (fun x hx => hwf x (List.Mem.tail _ hx)) hrun item hitem
      rcases hrest with hin | hP
      · -- the item was already in the accumulator after processing `e`
        rcases e with he | hn | ⟨rel, info⟩
        · cases hw
        · have hacc : acc = acc2 := by
            have h : Except.ok acc = (Except.ok acc2 : Except Str (List Str)) := hw
            injection h
          subst hacc
          exact Or.inl hin
        · simp only [walkStep] at hw
          by_cases hname : goContains rrdExt (lastComponent rel) = true
          · rw [if_pos hname] at hw
            rcases hinfo : info with ierr | dss
            · rw [hinfo] at hw
              have hacc : acc = acc2 := by injection hw
              subst hacc
              exact Or.inl hin
            · rw [hinfo] at hw
              have hacc : acc ++ dss.map (fun ds => fNameOf rel ++ ':' :: ds) = acc2 := by
                injection hw
              rw [← hacc] at hin
              rcases List.mem_append.mp hin with h1 | h2
              · exact Or.inl h1
              · right
                rcases List.mem_map.mp h2 with ⟨ds, hdsmem, hitem2⟩
                have hwfe := hwf _ (List.Mem.head _)
                rcases hwfe with ⟨comps, hcne, hrel, hcomps, hdss⟩
                have hsplit : splitColon item = comps ++ [ds] := by
                  rw [← hitem2, hrel]
                  exact item_splits comps ds hcne hcomps
                    (hdss dss (by rw [hinfo]) ds hdsmem)
                constructor
                · rw [hsplit, List.length_append, List.length_singleton]
                  have : 1 ≤ comps.length := by
                    rcases comps with _ | ⟨x, xs⟩
                    · exact absurd rfl hcne
                    · simp
                  omega
                · rw [hsplit, List.dropLast_concat, ← hrel]
                  unfold walkFileRels
                  exact List.mem_filterMap.mpr
                    ⟨WalkEntry.file rel (Except.ok dss), List.Mem.head _, rfl⟩
          · rw [if_neg hname] at hw
            have hacc : acc = acc2 := by injection hw
            subst hacc
            exact Or.inl hin
      · exact Or.inr ⟨hP.1, walkFileRels_mono e rest _ hP.2⟩

/-- **C8 (amended).** For every entry of a snapshot produced by a
completed refresh over well-formed archive paths (paths that are
`/`-joined components free of `:`, `/`, `.` and carry the `.rrd`
extension exactly once, at the end, with colon-free datasource names),
the identifier splits as `seg1:...:segN:datasourceName` with `N ≥ 1`, and
rejoining `seg1..segN` with the path separator and restoring the `.rrd`
extension gives the relative path of a file the walk really delivered. -/
theorem update_snapshot_invariant (entries : List WalkEntry) (items : List Str)
    (hwf : ∀ e ∈ entries, wfEntry e)
    (hrun : runWalk entries [] = Except.ok items) :
    ∀ item ∈ items, 2 ≤ (splitColon item).length ∧
      joinSep '/' ((splitColon item).dropLast) ++ rrdExt ∈ walkFileRels entries := by
  intro item hitem
  rcases runWalk_items entries [] items hwf hrun item hitem with hin | hP
  · cases hin
  · exact hP

/-- Witness for C8 (amended), at a two-level walk `dir1/file1.rrd` with
datasources `a` and `b`. -/
theorem update_snapshot_invariant_witness :
    2 ≤ (splitColon "dir1:file1:a".toList).length ∧
    joinSep '/' ((splitColon "dir1:file1:a".toList).dropLast) ++ rrdExt ∈
      walkFileRels [WalkEntry.file "dir1/file1.rrd".toList
        (Except.ok ["a".toList, "b".toList])] := by
  have h := update_snapshot_invariant
    [WalkEntry.file "dir1/file1.rrd".toList (Except.ok ["a".toList, "b".toList])]
    ["dir1:file1:a".toList, "dir1:file1:b".toList]
    (by
      intro e he
      rw [List.mem_singleton] at he
      subst he
      refine ⟨["dir1".toList, "file1".toList], by simp, by decide, by decide, ?_⟩
      intro dss hok
      injection hok with hdss
      subst hdss
      decide)
    rfl
  exact h "dir1:file1:a".toList (List.Mem.head _)

/-- Counterexample to C8 as stated.  A valid archive file named
`cpu.rrd.bak` (its name contains `.rrd`, so the refresh indexes it) yields
the snapshot entry `cpu.bak:d`, whose path segment `cpu.bak` rejoined with
the extension gives `cpu.bak.rrd` — not a file the walk delivered. -/
theorem update_snapshot_invariant_counterexample :
    runWalk [WalkEntry.file "cpu.rrd.bak".toList (Except.ok ["d".toList])] [] =
      Except.ok ["cpu.bak:d".toList] ∧
    ¬ (∀ item ∈ ["cpu.bak:d".toList], 2 ≤ (splitColon item).length ∧
        joinSep '/' ((splitColon item).dropLast) ++ rrdExt ∈
          walkFileRels [WalkEntry.file "cpu.rrd.bak".toList (Except.ok ["d".toList])]) := by
  constructor
  · rfl
  · decide

/-! ## The ls directory view (`ls`, lines 341-416)

For a target prefix, `ls` walks the snapshot: it first strips the
datasource (`strings.LastIndex(path, ":")`, skipping entries with
`lastColon <= 0`), keeps file paths under `target ++ ":"` (or all of them
for the empty target), and classifies the remainder: containing a further
colon, its first piece is a subdirectory; otherwise, when non-empty, it is
a file at this level.  The two Go map-backed sets are modelled as
deduplicated lists. -/

/-- Split at the last colon: `some (before, after)` when a colon exists
(`strings.LastIndex` ≥ 0), scanning from the right. -/
def splitLastColon (p : Str) : Option (Str × Str) :=
  match p.reverse.span (fun c => decide (c ≠ ':')) with
  | (revAfter, _ :: revBefore) => some (revBefore.reverse, revAfter.reverse)
  | (_, []) => none

/-- `path[:lastColon]` guarded by `lastColon <= 0` (lines 374-378): no
colon, or a colon only at position 0, skips the entry. -/
def filePathOf (p : Str) : Option Str :=
  match splitLastColon p with
  | some (before, _) => if before = [] then none else some before
  | none => none

/-- The prefix `ls` matches file paths against (lines 363-366). -/
def lsPrefix (t : Str) : Str := if t = [] then [] else t ++ [':']

/-- The relative path of a snapshot entry's file path below the target
(lines 381-386), when the entry survives the datasource strip and the
prefix check. -/
def relAt (t p : Str) : Option Str :=
  (filePathOf p).bind (fun fp =>
    if (lsPrefix t).isPrefixOf fp then some (fp.drop (lsPrefix t).length) else none)

/-- The subdirectory set of `ls` (lines 388-392), as a deduplicated list:
first piece (`strings.SplitN(relPath, ":", 2)[0]`) of every relative path
that still contains a colon. -/
def lsDirs (items : List Str) (t : Str) : List Str :=
  (items.filterMap (fun p => (relAt t p).bind (fun rel =>
    if goContains [':'] rel then some (rel.takeWhile (fun c => decide (c ≠ ':')))
    else none))).dedup

/-- The file set of `ls` (lines 393-396), as a deduplicated list: every
non-empty colon-free relative path. -/
def lsFiles (items : List Str) (t : Str) : List Str :=
  (items.filterMap (fun p => (relAt t p).bind (fun rel =>
    if goContains [':'] rel then none
    else if rel ≠ [] then some rel else none))).dedup

/-- The full name a child (file or subdirectory) of a target denotes. -/
def childTarget (t s : Str) : Str := if t = [] then s else t ++ ':' :: s

/-- Recursive enumeration through `ls`: all files at the target level plus
everything below each returned subdirectory, with a fuel bound on the
recursion depth. -/
def enumAll (items : List Str) : Nat → Str → List Str
  | 0, _ => []
  | fuel + 1, t =>
    (lsFiles items t).map (childTarget t) ++
    (lsDirs items t).flatMap (fun d => enumAll items fuel (childTarget t d))

/-- The file paths (datasource component stripped) of snapshot entries. -/
def filePathsOf (items : List Str) : List Str := items.filterMap filePathOf

/-- Well-formed snapshot entry: colon-joined non-empty, colon-free
segments, at least a file name and a datasource. -/
def wfItem (p : Str) : Prop :=
  ∃ segs : List Str, 2 ≤ segs.length ∧
    (∀ s ∈ segs, s ≠ [] ∧ ∀ c ∈ s, c ≠ ':') ∧ p = joinSep ':' segs

theorem takeWhile_all (p : Char → Bool) (s : Str) (h : ∀ c ∈ s, p c = true) :
    s.takeWhile p = s := by
  induction s with
  | nil => rfl
  | cons c rest ih =>
    rw [List.takeWhile_cons, if_pos (h c (List.Mem.head _)),
      ih (fun d hd => h d (List.Mem.tail _ hd))]

theorem splitLastColon_append (a last : Str) (hlast : ∀ c ∈ last, c ≠ ':') :
    splitLastColon (a ++ ':' :: last) = some (a, last) := by
  unfold splitLastColon
  have hrev : (a ++ ':' :: last).reverse = last.reverse ++ ':' :: a.reverse := by
    rw [List.reverse_append, List.reverse_cons, List.append_assoc]
    rfl
  rw [hrev, List.span_eq_take_drop]
  have hall : ∀ c ∈ last.reverse, (fun c => decide (c ≠ ':')) c = true := by
    intro c hc
    simp only [decide_eq_true_eq]
    exact hlast c (List.mem_reverse.mp hc)
  have h1 : (last.reverse ++ ':' :: a.reverse).takeWhile (fun c => decide (c ≠ ':')) =
      last.reverse := by
    rw [(takeWhile_all_append (fun c => decide (c ≠ ':')) last.reverse
      (':' :: a.reverse) hall).1]
    simp
  have h2 : (last.reverse ++ ':' :: a.reverse).dropWhile (fun c => decide (c ≠ ':')) =
      ':' :: a.reverse := by
    rw [(takeWhile_all_append (fun c => decide (c ≠ ':')) last.reverse
      (':' :: a.reverse) hall).2]
    simp
  rw [h1, h2]
  simp

theorem splitLastColon_colonFree (s : Str) (h : ∀ c ∈ s, c ≠ ':') :
    splitLastColon s = none := by
  unfold splitLastColon
  rw [List.span_eq_take_drop]
  have hd : s.reverse.dropWhile (fun c => decide (c ≠ ':')) = [] := by
    rw [List.dropWhile_eq_nil_iff]
    intro c hc
    simp only [decide_eq_true_eq]
    exact h c (List.mem_reverse.mp hc)
  rw [hd]

theorem goContains_colon_iff (s : Str) : goContains [':'] s = true ↔ ':' ∈ s := by
  induction s with
  | nil => simp [goContains, List.isEmpty]
  | cons c rest ih =>
    show (List.isPrefixOf [':'] (c :: rest) || goContains [':'] rest) = true ↔ _
    rw [Bool.or_eq_true, ih]
    constructor
    · rintro (h1 | h2)
      · rcases List.isPrefixOf_iff_prefix.mp h1 with ⟨t, ht⟩
        rw [List.singleton_append] at ht
        have : ':' = c := (List.cons.injEq _ _ _ _ ▸ ht).1
        rw [← this]
        exact List.Mem.head _
      · exact List.Mem.tail _ h2
    · intro h
      rcases List.mem_cons.mp h with h1 | h2
      · left
        rw [← h1]
        exact List.isPrefixOf_iff_prefix.mpr ⟨rest, rfl⟩
      · exact Or.inr h2

theorem joinSep_ne_nil (sep : Char) (s : Str) (rest : List Str) (hs : s ≠ []) :
    joinSep sep (s :: rest) ≠ [] := by
  rcases rest with _ | ⟨r, rest⟩
  · exact hs
  · rw [joinSep_cons_cons]
    rcases s with _ | ⟨c, s⟩
    · exact absurd rfl hs
    · simp

theorem joinSep_append (sep : Char) (a b : List Str) (ha : a ≠ []) (hb : b ≠ []) :
    joinSep sep (a ++ b) = joinSep sep a ++ sep :: joinSep sep b := by
  induction a with
  | nil => exact absurd rfl ha
  | cons s rest ih =>
    rcases rest with _ | ⟨r, rest⟩
    · rcases b with _ | ⟨b0, b⟩
      · exact absurd rfl hb
      · rfl
    · have h2 : joinSep sep ((s :: r :: rest) ++ b) =
        s ++ sep :: joinSep sep ((r :: rest) ++ b) := rfl
      rw [h2, ih (by simp), joinSep_cons_cons]
      simp

theorem splitColon_join_append (ts : List Str) (z : Str) (hts : ts ≠ [])
    (h : ∀ s ∈ ts, ∀ c ∈ s, c ≠ ':') :
    splitColon (joinSep ':' ts ++ ':' :: z) = ts ++ splitColon z := by
  induction ts with
  | nil => exact absurd rfl hts
  | cons t rest ih =>
    rcases rest with _ | ⟨r, rest⟩
    · exact splitColon_append_colon t z (h t (List.Mem.head _))
    · rw [joinSep_cons_cons, List.append_assoc, List.cons_append,
        splitColon_append_colon t _ (h t (List.Mem.head _))]
      have := ih (by simp) (fun s hs c hc => h s (List.Mem.tail _ hs) c hc)
      rw [List.cons_append] at this ⊢
      rw [← List.cons_append, this]
      rfl

theorem colon_mem_join_iff (segs : List Str)
    (h : ∀ s ∈ segs, ∀ c ∈ s, c ≠ ':') :
    ':' ∈ joinSep ':' segs ↔ 2 ≤ segs.length := by
  rcases segs with _ | ⟨s, _ | ⟨r, rest⟩⟩
  · simp [joinSep]
  · constructor
    · intro hc
      exact absurd rfl (h s (List.Mem.head _) ':' hc)
    · intro hc
      simp at hc
  · constructor
    · intro _
      simp
    · intro _
      rw [joinSep_cons_cons]
      exact List.mem_append.mpr (Or.inr (List.Mem.head _))

theorem takeWhile_join_head (s : Str) (rest : List Str)
    (hs : ∀ c ∈ s, c ≠ ':') :
    (joinSep ':' (s :: rest)).takeWhile (fun c => decide (c ≠ ':')) = s := by
  have hall : ∀ c ∈ s, (fun c => decide (c ≠ ':')) c = true := by
    intro c hc
    simp only [decide_eq_true_eq]
    exact hs c hc
  rcases rest with _ | ⟨r, rest⟩
  · exact takeWhile_all _ s hall
  · rw [joinSep_cons_cons]
    rw [(takeWhile_all_append (fun c => decide (c ≠ ':')) s _ hall).1,
      List.takeWhile_cons]
    simp

theorem joinSep_splitColon (p : Str) : joinSep ':' (splitColon p) = p := by
  induction p with
  | nil => rfl
  | cons c rest ih =>
    by_cases h : c = ':'
    · subst h
      rw [splitColon, if_pos rfl]
      rcases hs : splitColon rest with _ | ⟨s, ss⟩
      · exact absurd hs (splitColon_ne_nil rest)
      · rw [hs] at ih
        rw [joinSep_cons_cons, ← ih]
        rfl
    · rw [splitColon, if_neg h]
      rcases hs : splitColon rest with _ | ⟨s, ss⟩
      · exact absurd hs (splitColon_ne_nil rest)
      · rw [hs] at ih
        show joinSep ':' ((c :: s) :: ss) = c :: rest
        rcases ss with _ | ⟨s2, ss⟩
        · show c :: s = c :: rest
          rw [List.cons_inj_right]
          exact ih
        · rw [joinSep_cons_cons] at ih ⊢
          rw [List.cons_append, List.cons_inj_right]
          exact ih

theorem wf_decomp (p : Str) (h : wfItem p) :
    ∃ init last, splitColon p = init ++ [last] ∧ init ≠ [] ∧
      (∀ s ∈ init, s ≠ [] ∧ ∀ c ∈ s, c ≠ ':') ∧
      (last ≠ [] ∧ ∀ c ∈ last, c ≠ ':') ∧
      filePathOf p = some (joinSep ':' init) := by
  rcases h with ⟨segs, hlen, hsegs, rfl⟩
  have hne : segs ≠ [] := by
    intro h0
    subst h0
    simp at hlen
  have hsplit : splitColon (joinSep ':' segs) = segs :=
    splitColon_join segs hne (fun s hs c hc => (hsegs s hs).2 c hc)
  have hdecomp : segs.dropLast ++ [segs.getLast hne] = segs :=
    List.dropLast_append_getLast hne
  refine ⟨segs.dropLast, segs.getLast hne, by rw [hsplit, hdecomp], ?_, ?_, ?_, ?_⟩
  · intro h0
    have : segs.length = 1 := by
      have := congrArg List.length hdecomp
      rw [h0] at this
      simpa using this.symm
    omega
  · intro s hs
    exact hsegs s (List.dropLast_subset segs hs)
  · exact hsegs _ (List.getLast_mem hne)
  · have hinitne : segs.dropLast ≠ [] := by
      intro h0
      have := congrArg List.length hdecomp
      rw [h0] at this
      simp at this
      omega
    have hjoin : joinSep ':' segs =
        joinSep ':' segs.dropLast ++ ':' :: segs.getLast hne := by
      conv_lhs => rw [← hdecomp]
      exact joinSep_append_singleton ':' segs.dropLast _ hinitne
    unfold filePathOf
    rw [hjoin, splitLastColon_append _ _ (hsegs _ (List.getLast_mem hne)).2]
    have hjn : joinSep ':' segs.dropLast ≠ [] := by
      rcases hi : segs.dropLast with _ | ⟨i0, irest⟩
      · exact absurd hi hinitne
      · exact joinSep_ne_nil ':' i0 irest
          (hsegs i0 (List.dropLast_subset segs (hi ▸ List.Mem.head _))).1
    show (if joinSep ':' segs.dropLast = [] then none else some (joinSep ':' segs.dropLast)) =
      some (joinSep ':' segs.dropLast)
    rw [if_neg hjn]

theorem relAt_wf (p : Str) (hp : wfItem p) (ts : List Str)
    (hts : ∀ s ∈ ts, s ≠ [] ∧ ∀ c ∈ s, c ≠ ':') (rel : Str) :
    relAt (joinSep ':' ts) p = some rel ↔
      ∃ rsegs, rsegs ≠ [] ∧ (splitColon p).dropLast = ts ++ rsegs ∧
        rel = joinSep ':' rsegs := by
  rcases wf_decomp p hp with ⟨init, last, hsplit, hinitne, hinit, _, hfp⟩
  have hdrop : (splitColon p).dropLast = init := by
    rw [hsplit, List.dropLast_concat]
  unfold relAt
  rw [hfp]
  rcases hts0 : ts with _ | ⟨t0, trest⟩
  · -- root target
    have hp0 : lsPrefix (joinSep ':' ([] : List Str)) = [] := rfl
    have htriv : (([] : Str)).isPrefixOf (joinSep ':' init) = true :=
      List.isPrefixOf_iff_prefix.mpr List.nil_prefix
    rw [hp0]
    simp only [Option.some_bind]
    rw [if_pos htriv]
    simp only [List.length_nil, List.drop_zero]
    constructor
    · intro h
      have h2 : joinSep ':' init = rel := by injection h
      exact ⟨init, hinitne, by rw [hdrop, List.nil_append], h2.symm⟩
    · rintro ⟨rsegs, _, hd, hrel⟩
      rw [List.nil_append] at hd
      rw [hdrop] at hd
      rw [hrel, ← hd]
  · -- non-empty target
    rw [← hts0]
    have htne : ts ≠ [] := by rw [hts0]; simp
    have htj : joinSep ':' ts ≠ [] := by
      rw [hts0]
      exact joinSep_ne_nil ':' t0 trest (hts t0 (hts0 ▸ List.Mem.head _)).1
    have hlsp : lsPrefix (joinSep ':' ts) = joinSep ':' ts ++ [':'] := by
      unfold lsPrefix
      rw [if_neg htj]
    rw [hlsp]
    simp only [Option.some_bind]
    by_cases hpre : (joinSep ':' ts ++ [':']).isPrefixOf (joinSep ':' init) = true
    · rw [if_pos hpre]
      rcases List.isPrefixOf_iff_prefix.mp hpre with ⟨r, hr⟩
      rw [List.append_assoc, List.singleton_append] at hr
      -- hr : joinSep ':' ts ++ ':' :: r = joinSep ':' init
      have hinitsplit : init = ts ++ splitColon r := by
        have h1 : splitColon (joinSep ':' ts ++ ':' :: r) = ts ++ splitColon r :=
          splitColon_join_append ts r htne (fun s hs c hc => (hts s hs).2 c hc)
        have h2 : splitColon (joinSep ':' init) = init :=
          splitColon_join init hinitne (fun s hs c hc => (hinit s hs).2 c hc)
        rw [hr] at h1
        rw [h2] at h1
        exact h1
      have hdropr : (joinSep ':' init).drop (joinSep ':' ts ++ [':']).length = r := by
        rw [← hr]
        have hassoc : joinSep ':' ts ++ ':' :: r = (joinSep ':' ts ++ [':']) ++ r := by
          rw [List.append_assoc, List.singleton_append]
        rw [hassoc, List.drop_left]
      rw [hdropr]
      constructor
      · intro h
        have h2 : r = rel := by injection h
        exact ⟨splitColon r, splitColon_ne_nil r, by rw [hdrop, hinitsplit],
          by rw [← h2, joinSep_splitColon]⟩
      · rintro ⟨rsegs, _, hd, hrel⟩
        rw [hdrop, hinitsplit] at hd
        have : splitColon r = rsegs := List.append_cancel_left hd
        rw [hrel, ← this, joinSep_splitColon]
    · rw [if_neg hpre]
      constructor
      · intro h
        cases h
      · rintro ⟨rsegs, hrne, hd, _⟩
        exfalso
        apply hpre
        rw [hdrop] at hd
        have hjoin2 : joinSep ':' init = joinSep ':' ts ++ ':' :: joinSep ':' rsegs := by
          rw [hd]
          exact joinSep_append ':' ts rsegs htne hrne
        rw [hjoin2]
        apply List.isPrefixOf_iff_prefix.mpr
        refine ⟨joinSep ':' rsegs, ?_⟩
        rw [List.append_assoc, List.singleton_append]

theorem dropLast_props (p : Str) (hp : wfItem p) :
    ∀ s ∈ (splitColon p).dropLast, s ≠ [] ∧ ∀ c ∈ s, c ≠ ':' := by
  rcases wf_decomp p hp with ⟨init, last, hsplit2, _, hinit, _, _⟩
  have hdl : (splitColon p).dropLast = init := by
    rw [hsplit2, List.dropLast_concat]
  rw [hdl]
  exact hinit

theorem mem_lsFiles_iff (items : List Str) (hwf : ∀ p ∈ items, wfItem p) (ts : List Str)
    (hts : ∀ s ∈ ts, s ≠ [] ∧ ∀ c ∈ s, c ≠ ':') (f : Str) :
    f ∈ lsFiles items (joinSep ':' ts) ↔
      ∃ p ∈ items, (splitColon p).dropLast = ts ++ [f] := by
  unfold lsFiles
  rw [List.mem_dedup, List.mem_filterMap]
  constructor
  · rintro ⟨p, hp, hf⟩
    rcases hrel : relAt (joinSep ':' ts) p with _ | rel
    · rw [hrel] at hf
      cases hf
    · rw [hrel] at hf
      simp only [Option.some_bind] at hf
      rcases (relAt_wf p (hwf p hp) ts hts rel).mp hrel with ⟨rsegs, hrne, hd, hrj⟩
      have hrsegs : ∀ s ∈ rsegs, s ≠ [] ∧ ∀ c ∈ s, c ≠ ':' := by
        intro s hs
        exact dropLast_props p (hwf p hp) s (hd ▸ List.mem_append.mpr (Or.inr hs))
      by_cases hcol : goContains [':'] rel = true
      · rw [if_pos hcol] at hf
        cases hf
      · rw [if_neg hcol] at hf
        have hlen : ¬ 2 ≤ rsegs.length := by
          intro h2
          apply hcol
          rw [hrj]
          exact (goContains_colon_iff _).mpr ((colon_mem_join_iff rsegs
            (fun s hs c hc => (hrsegs s hs).2 c hc)).mpr h2)
        rcases rsegs with _ | ⟨r0, _ | ⟨r1, rs⟩⟩
        · exact absurd rfl hrne
        · have hrel0 : rel = r0 := hrj
          by_cases hne0 : rel ≠ []
          · rw [if_pos hne0] at hf
            have hrf : rel = f := by injection hf
            exact ⟨p, hp, by rw [hd, ← hrf, hrel0]⟩
          · rw [if_neg hne0] at hf
            cases hf
        · exfalso
          apply hlen
          simp
  · rintro ⟨p, hp, hd⟩
    refine ⟨p, hp, ?_⟩
    have hfwf : f ≠ [] ∧ ∀ c ∈ f, c ≠ ':' :=
      dropLast_props p (hwf p hp) f (hd ▸ List.mem_append.mpr (Or.inr (List.Mem.head _)))
    have hrel : relAt (joinSep ':' ts) p = some f :=
      (relAt_wf p (hwf p hp) ts hts f).mpr ⟨[f], by simp, hd, rfl⟩
    rw [hrel]
    simp only [Option.some_bind]
    have hcol : ¬ goContains [':'] f = true := by
      intro h
      exact hfwf.2 ':' ((goContains_colon_iff f).mp h) rfl
    rw [if_neg hcol, if_pos hfwf.1]

theorem mem_lsDirs_iff (items : List Str) (hwf : ∀ p ∈ items, wfItem p) (ts : List Str)
    (hts : ∀ s ∈ ts, s ≠ [] ∧ ∀ c ∈ s, c ≠ ':') (d : Str) :
    d ∈ lsDirs items (joinSep ':' ts) ↔
      ∃ p ∈ items, ∃ rest, rest ≠ [] ∧ (splitColon p).dropLast = ts ++ d :: rest := by
  unfold lsDirs
  rw [List.mem_dedup, List.mem_filterMap]
  constructor
  · rintro ⟨p, hp, hf⟩
    rcases hrel : relAt (joinSep ':' ts) p with _ | rel
    · rw [hrel] at hf
      cases hf
    · rw [hrel] at hf
      simp only [Option.some_bind] at hf
      rcases (relAt_wf p (hwf p hp) ts hts rel).mp hrel with ⟨rsegs, hrne, hd2, hrj⟩
      have hrsegs : ∀ s ∈ rsegs, s ≠ [] ∧ ∀ c ∈ s, c ≠ ':' := by
        intro s hs
        exact dropLast_props p (hwf p hp) s (hd2 ▸ List.mem_append.mpr (Or.inr hs))
      by_cases hcol : goContains [':'] rel = true
      · rw [if_pos hcol] at hf
        have hlen : 2 ≤ rsegs.length := by
          apply (colon_mem_join_iff rsegs
            (fun s hs c hc => (hrsegs s hs).2 c hc)).mp
          rw [hrj] at hcol
          exact (goContains_colon_iff _).mp hcol
        rcases rsegs with _ | ⟨r0, _ | ⟨r1, rs⟩⟩
        · exact absurd rfl hrne
        · simp at hlen
        · have htk : rel.takeWhile (fun c => decide (c ≠ ':')) = r0 := by
            rw [hrj]
            exact takeWhile_join_head r0 (r1 :: rs) (hrsegs r0 (List.Mem.head _)).2
          have hdf : r0 = d := by
            rw [← htk]
            injection hf
          exact ⟨p, hp, r1 :: rs, by simp, by rw [hd2, hdf]⟩
      · rw [if_neg hcol] at hf
        cases hf
  · rintro ⟨p, hp, rest, hrestne, hd2⟩
    refine ⟨p, hp, ?_⟩
    have hprops : ∀ s ∈ d :: rest, s ≠ [] ∧ ∀ c ∈ s, c ≠ ':' := by
      intro s hs
      exact dropLast_props p (hwf p hp) s (hd2 ▸ List.mem_append.mpr (Or.inr hs))
    have hrel : relAt (joinSep ':' ts) p = some (joinSep ':' (d :: rest)) :=
      (relAt_wf p (hwf p hp) ts hts _).mpr ⟨d :: rest, by simp, hd2, rfl⟩
    rw [hrel]
    simp only [Option.some_bind]
    have hlen2 : 2 ≤ (d :: rest).length := by
      rcases rest with _ | ⟨x, xs⟩
      · exact absurd rfl hrestne
      · simp
    have hcol : goContains [':'] (joinSep ':' (d :: rest)) = true :=
      (goContains_colon_iff _).mpr ((colon_mem_join_iff _
        (fun s hs c hc => (hprops s hs).2 c hc)).mpr hlen2)
    rw [if_pos hcol, takeWhile_join_head d rest (hprops d (List.Mem.head _)).2]

theorem childTarget_join (ts : List Str) (hts : ∀ s ∈ ts, s ≠ []) (s : Str) :
    childTarget (joinSep ':' ts) s = joinSep ':' (ts ++ [s]) := by
  unfold childTarget
  rcases ts with _ | ⟨t0, trest⟩
  · show (if ([] : Str) = [] then s else _) = _
    rw [if_pos rfl]
    rfl
  · have hne := joinSep_ne_nil ':' t0 trest (hts t0 (List.Mem.head _))
    rw [if_neg hne, joinSep_append_singleton ':' (t0 :: trest) s (by simp)]

theorem childTarget_inj (t : Str) : Function.Injective (childTarget t) := by
  intro a b hab
  unfold childTarget at hab
  by_cases h : t = []
  · rwa [if_pos h, if_pos h] at hab
  · rw [if_neg h, if_neg h] at hab
    have h2 := List.append_cancel_left hab
    injection h2

theorem prefix_proper_length (ts l : List Str) (h : ts <+: l) (hne : ts ≠ l) :
    ts.length < l.length := by
  rcases h with ⟨r, hr⟩
  rcases r with _ | ⟨r0, rs⟩
  · rw [List.append_nil] at hr
    exact absurd hr hne
  · rw [← hr, List.length_append, List.length_cons]
    omega

theorem prefix_succ_eq (ts l : List Str) (h : ts <+: l)
    (hl : l.length = ts.length + 1) : ∃ f, l = ts ++ [f] := by
  rcases h with ⟨r, hr⟩
  rcases r with _ | ⟨f, _ | ⟨g, rs⟩⟩
  · rw [← hr] at hl
    simp at hl
  · exact ⟨f, hr.symm⟩
  · rw [← hr] at hl
    simp at hl

theorem prefix_two_more (ts l : List Str) (h : ts <+: l)
    (hl : ts.length + 2 ≤ l.length) :
    ∃ d rest, rest ≠ [] ∧ l = ts ++ d :: rest := by
  rcases h with ⟨r, hr⟩
  rcases r with _ | ⟨d, _ | ⟨g, rs⟩⟩
  · rw [← hr] at hl
    simp at hl
  · rw [← hr, List.length_append, List.length_singleton] at hl
    omega
  · exact ⟨d, g :: rs, by simp, hr.symm⟩

theorem filePath_split (p : Str) (hp : wfItem p) (x : Str)
    (hx : filePathOf p = some x) :
    splitColon x = (splitColon p).dropLast ∧ splitColon x ≠ [] := by
  rcases wf_decomp p hp with ⟨init, last, hsplit, hinitne, hinit, _, hfp⟩
  rw [hfp] at hx
  have hxj : joinSep ':' init = x := by injection hx
  have hdl : (splitColon p).dropLast = init := by
    rw [hsplit, List.dropLast_concat]
  have hsx : splitColon x = init := by
    rw [← hxj]
    exact splitColon_join init hinitne (fun s hs c hc => (hinit s hs).2 c hc)
  exact ⟨by rw [hsx, hdl], by rw [hsx]; exact hinitne⟩

theorem enumAll_mem_spec (items : List Str) (hwf : ∀ p ∈ items, wfItem p) :
    ∀ (fuel : Nat) (ts : List Str), (∀ s ∈ ts, s ≠ [] ∧ ∀ c ∈ s, c ≠ ':') →
      (∀ p ∈ items, (splitColon p).length ≤ ts.length + fuel + 1) →
      ((∀ x, x ∈ enumAll items fuel (joinSep ':' ts) ↔
          ∃ p ∈ items, filePathOf p = some x ∧ ts <+: splitColon x ∧ ts ≠ splitColon x) ∧
       (enumAll items fuel (joinSep ':' ts)).Nodup) := by
  intro fuel
  induction fuel with
  | zero =>
    intro ts hts hfuel
    refine ⟨?_, by simp [enumAll]⟩
    intro x
    constructor
    · intro h
      simp [enumAll] at h
    · rintro ⟨p, hp, hfp, hpre, hne⟩
      exfalso
      have h1 := filePath_split p (hwf p hp) x hfp
      have h2 : ts.length < (splitColon x).length := prefix_proper_length _ _ hpre hne
      have h3 : (splitColon x).length + 1 = (splitColon p).length := by
        have h4 := congrArg List.length h1.1
        rw [List.length_dropLast] at h4
        have h5 : 1 ≤ (splitColon p).length := by
          rcases hsc : splitColon p with _ | _
          · exact absurd hsc (splitColon_ne_nil p)
          · simp
        omega
      have h6 := hfuel p hp
      omega
  | succ fuel ih =>
    intro ts hts hfuel
    have htsne : ∀ s ∈ ts, s ≠ [] := fun s hs => (hts s hs).1
    have hts' : ∀ d, (d ≠ [] ∧ ∀ c ∈ d, c ≠ ':') →
        ∀ s ∈ ts ++ [d], s ≠ [] ∧ ∀ c ∈ s, c ≠ ':' := by
      intro d hd s hs
      rcases List.mem_append.mp hs with h | h
      · exact hts s h
      · rw [List.mem_singleton] at h
        subst h
        exact hd
    have hfuel' : ∀ (d : Str), ∀ p ∈ items,
        (splitColon p).length ≤ (ts ++ [d]).length + fuel + 1 := by
      intro d p hp
      have := hfuel p hp
      rw [List.length_append, List.length_singleton]
      omega
    have hdprops : ∀ d ∈ lsDirs items (joinSep ':' ts), d ≠ [] ∧ ∀ c ∈ d, c ≠ ':' := by
      intro d hd
      rcases (mem_lsDirs_iff items hwf ts hts d).mp hd with ⟨p, hp, rest, hrne, hdl⟩
      exact dropLast_props p (hwf p hp) d
        (hdl ▸ List.mem_append.mpr (Or.inr (List.Mem.head _)))
    constructor
    · intro x
      show x ∈ (lsFiles items (joinSep ':' ts)).map (childTarget (joinSep ':' ts)) ++
        (lsDirs items (joinSep ':' ts)).flatMap
          (fun d => enumAll items fuel (childTarget (joinSep ':' ts) d)) ↔ _
      rw [List.mem_append, List.mem_map, List.mem_flatMap]
      constructor
      · rintro (⟨f, hfmem, hfx⟩ | ⟨d, hdmem, hxd⟩)
        · rcases (mem_lsFiles_iff items hwf ts hts f).mp hfmem with ⟨p, hp, hdl⟩
          have hfprops : f ≠ [] ∧ ∀ c ∈ f, c ≠ ':' :=
            dropLast_props p (hwf p hp) f
              (hdl ▸ List.mem_append.mpr (Or.inr (List.Mem.head _)))
          rcases wf_decomp p (hwf p hp) with ⟨init, last, hsplit, hinitne, hinit, _, hfp⟩
          have hdl2 : (splitColon p).dropLast = init := by
            rw [hsplit, List.dropLast_concat]
          have hx : x = joinSep ':' (ts ++ [f]) := by
            rw [← hfx, childTarget_join ts htsne f]
          have hinit2 : init = ts ++ [f] := by rw [← hdl2, hdl]
          have hsx : splitColon x = ts ++ [f] := by
            rw [hx]
            exact splitColon_join _ (by simp)
              (fun s hs c hc => ((hts' f hfprops) s hs).2 c hc)
          refine ⟨p, hp, ?_, ?_, ?_⟩
          · rw [hfp, hinit2, ← hx]
          · rw [hsx]
            exact ⟨[f], rfl⟩
          · rw [hsx]
            intro heq
            have hle := congrArg List.length heq
            simp at hle
        · have hd2 := hdprops d hdmem
          rw [childTarget_join ts htsne d] at hxd
          rcases ((ih (ts ++ [d]) (hts' d hd2) (hfuel' d)).1 x).mp hxd with
            ⟨p, hp, hfp, hpre, hne⟩
          refine ⟨p, hp, hfp, (List.prefix_append ts [d]).trans hpre, ?_⟩
          intro heq
          have hlt := prefix_proper_length _ _ hpre hne
          rw [← heq] at hlt
          simp at hlt
      · rintro ⟨p, hp, hfp, hpre, hne⟩
        have hsplit := filePath_split p (hwf p hp) x hfp
        have hlt := prefix_proper_length _ _ hpre hne
        by_cases hlen : (splitColon x).length = ts.length + 1
        · rcases prefix_succ_eq ts _ hpre hlen with ⟨f, hxf⟩
          left
          refine ⟨f, ?_, ?_⟩
          · exact (mem_lsFiles_iff items hwf ts hts f).mpr
              ⟨p, hp, by rw [← hsplit.1, hxf]⟩
          · rw [childTarget_join ts htsne f, ← hxf]
            exact joinSep_splitColon x
        · have hge : ts.length + 2 ≤ (splitColon x).length := by omega
          rcases prefix_two_more ts _ hpre hge with ⟨d, rest, hrne, hxd⟩
          right
          have hdmem : d ∈ lsDirs items (joinSep ':' ts) :=
            (mem_lsDirs_iff items hwf ts hts d).mpr
              ⟨p, hp, rest, hrne, by rw [← hsplit.1, hxd]⟩
          have hd2 := hdprops d hdmem
          refine ⟨d, hdmem, ?_⟩
          rw [childTarget_join ts htsne d]
          apply ((ih (ts ++ [d]) (hts' d hd2) (hfuel' d)).1 x).mpr
          refine ⟨p, hp, hfp, ?_, ?_⟩
          · rw [hxd]
            exact ⟨rest, by rw [List.append_assoc, List.singleton_append]⟩
          · intro heq
            rw [hxd] at heq
            have h2 := List.append_cancel_left heq
            injection h2 with _ h3
            exact hrne h3.symm
    · show ((lsFiles items (joinSep ':' ts)).map (childTarget (joinSep ':' ts)) ++
        (lsDirs items (joinSep ':' ts)).flatMap
          (fun d => enumAll items fuel (childTarget (joinSep ':' ts) d))).Nodup
      have hndfiles : ((lsFiles items (joinSep ':' ts)).map
          (childTarget (joinSep ':' ts))).Nodup := by
        apply List.Nodup.map (childTarget_inj _)
        unfold lsFiles
        exact List.nodup_dedup _
      have hnddirs : ((lsDirs items (joinSep ':' ts)).flatMap
          (fun d => enumAll items fuel (childTarget (joinSep ':' ts) d))).Nodup := by
        rw [List.nodup_flatMap]
        constructor
        · intro d hd
          have hd2 := hdprops d hd
          rw [childTarget_join ts htsne d]
          exact (ih (ts ++ [d]) (hts' d hd2) (hfuel' d)).2
        · have hnd : (lsDirs items (joinSep ':' ts)).Nodup := by
            unfold lsDirs
            exact List.nodup_dedup _
          apply List.Pairwise.imp_of_mem ?_ hnd
          intro d1 d2 hd1 hd2 hne12
          show List.Disjoint _ _
          intro x hx1 hx2
          have h1 := hdprops d1 hd1
          have h2 := hdprops d2 hd2
          simp only [] at hx1 hx2
          rw [childTarget_join ts htsne d1] at hx1
          rw [childTarget_join ts htsne d2] at hx2
          rcases ((ih (ts ++ [d1]) (hts' d1 h1) (hfuel' d1)).1 x).mp hx1 with
            ⟨_, _, _, hp1, _⟩
          rcases ((ih (ts ++ [d2]) (hts' d2 h2) (hfuel' d2)).1 x).mp hx2 with
            ⟨_, _, _, hp2, _⟩
          apply hne12
          have e1 := List.prefix_iff_eq_take.mp hp1
          have e2 := List.prefix_iff_eq_take.mp hp2
          rw [List.length_append, List.length_singleton] at e1 e2
          have e12 : ts ++ [d1] = ts ++ [d2] := by rw [e1, e2]
          have e3 := List.append_cancel_left e12
          injection e3
      apply List.Nodup.append hndfiles hnddirs
      intro x hx1 hx2
      rcases List.mem_map.mp hx1 with ⟨f, hfmem, hfx⟩
      rcases (mem_lsFiles_iff items hwf ts hts f).mp hfmem with ⟨p, hp, hdl⟩
      have hfprops : f ≠ [] ∧ ∀ c ∈ f, c ≠ ':' :=
        dropLast_props p (hwf p hp) f
          (hdl ▸ List.mem_append.mpr (Or.inr (List.Mem.head _)))
      have hsx : splitColon x = ts ++ [f] := by
        rw [← hfx, childTarget_join ts htsne f]
        exact splitColon_join _ (by simp)
          (fun s hs c hc => ((hts' f hfprops) s hs).2 c hc)
      rcases List.mem_flatMap.mp hx2 with ⟨d, hdmem, hxd⟩
      have hd2 := hdprops d hdmem
      rw [childTarget_join ts htsne d] at hxd
      rcases ((ih (ts ++ [d]) (hts' d hd2) (hfuel' d)).1 x).mp hxd with
        ⟨_, _, _, hpre, hne⟩
      have hlt := prefix_proper_length _ _ hpre hne
      rw [hsx, List.length_append, List.length_append] at hlt
      simp at hlt

theorem wfItem_of_check (p : Str) (h2 : 2 ≤ (splitColon p).length)
    (hall : ∀ s ∈ splitColon p, s ≠ [] ∧ ∀ c ∈ s, c ≠ ':') : wfItem p :=
  ⟨splitColon p, h2, hall, (joinSep_splitColon p).symm⟩

/-- **C5 (amended).** For a namespace snapshot of well-formed identifiers
(colon-joined non-empty colon-free segments, at least two per entry),
calling `ls` with the empty prefix and recursively calling it on every
returned subdirectory (with enough fuel for the snapshot's depth)
enumerates, without omissions or duplicates, exactly the set of *file
paths* of the snapshot — each entry with its final (datasource) component
stripped — and not the result of `search` with the empty target, which is
always the empty list. -/
theorem ls_recursive_enumeration (items : List Str) (fuel : Nat)
    (hwf : ∀ p ∈ items, wfItem p)
    (hfuel : ∀ p ∈ items, (splitColon p).length ≤ fuel + 1) :
    (enumAll items fuel []).Nodup ∧
    (∀ x, x ∈ enumAll items fuel [] ↔ x ∈ filePathsOf items) ∧
    searchFilter items [] = [] := by
  have h := enumAll_mem_spec items hwf fuel [] (by simp)
    (by
      intro p hp
      have := hfuel p hp
      simpa using this)
  have h1 : ∀ x : Str, x ∈ enumAll items fuel [] ↔
      ∃ p ∈ items, filePathOf p = some x ∧
        [] <+: splitColon x ∧ ([] : List Str) ≠ splitColon x := h.1
  have h2 : (enumAll items fuel []).Nodup := h.2
  refine ⟨h2, ?_, by simp [searchFilter]⟩
  intro x
  rw [h1 x]
  unfold filePathsOf
  rw [List.mem_filterMap]
  constructor
  · rintro ⟨p, hp, hfp, _, _⟩
    exact ⟨p, hp, hfp⟩
  · rintro ⟨p, hp, hfp⟩
    have hs := filePath_split p (hwf p hp) x hfp
    refine ⟨p, hp, hfp, List.nil_prefix, ?_⟩
    intro heq
    exact hs.2 heq.symm

/-- Witness for C5 (amended): for the spec's example snapshot
`{host1:cpu:used, host1:cpu:idle, host2:mem:used}`, the recursive listing
enumerates exactly the two file paths `host1:cpu` and `host2:mem`,
without duplicates. -/
theorem ls_recursive_enumeration_witness :
    (∀ x, x ∈ enumAll ["host1:cpu:used".toList, "host1:cpu:idle".toList,
        "host2:mem:used".toList] 3 [] ↔
      x ∈ filePathsOf ["host1:cpu:used".toList, "host1:cpu:idle".toList,
        "host2:mem:used".toList]) ∧
    (enumAll ["host1:cpu:used".toList, "host1:cpu:idle".toList,
        "host2:mem:used".toList] 3 []).Nodup := by
  have hchk : ∀ p ∈ ["host1:cpu:used".toList, "host1:cpu:idle".toList,
      "host2:mem:used".toList], 2 ≤ (splitColon p).length ∧
      ∀ s ∈ splitColon p, s ≠ [] ∧ ∀ c ∈ s, c ≠ ':' := by decide
  have hwf : ∀ p ∈ ["host1:cpu:used".toList, "host1:cpu:idle".toList,
      "host2:mem:used".toList], wfItem p := fun p hp =>
    wfItem_of_check p (hchk p hp).1 (hchk p hp).2
  have hfuel : ∀ p ∈ ["host1:cpu:used".toList, "host1:cpu:idle".toList,
      "host2:mem:used".toList], (splitColon p).length ≤ 3 + 1 := by decide
  have h := ls_recursive_enumeration ["host1:cpu:used".toList, "host1:cpu:idle".toList,
    "host2:mem:used".toList] 3 hwf hfuel
  exact ⟨h.2.1, h.1⟩

/-- Counterexample to C5 as stated: for snapshot `{a:b}`, the recursive
listing from the root enumerates `{a}` (the file path, datasource
stripped), while `search` with the empty target returns the empty list —
the two sets differ. -/
theorem ls_recursive_enumeration_counterexample :
    "a".toList ∈ enumAll ["a:b".toList] 2 [] ∧
    "a".toList ∉ searchFilter ["a:b".toList] [] ∧
    ¬ (∀ x, x ∈ enumAll ["a:b".toList] 2 [] ↔ x ∈ searchFilter ["a:b".toList] []) := by
  refine ⟨by decide, by decide, fun h => ?_⟩
  exact absurd ((h "a".toList).mp (by decide)) (by decide)
